import Mathlib

/-!
Verification development for the request-building and response-normalization
core of an OpenAPI axios client.  The TypeScript sources `src/openapi.ts`
(parameter splitting, operation naming, client building) and `src/wrapper.ts`
(response normalization and problem classification) are shallowly embedded
over `List Char` strings and association lists, and the specification claims
are settled as theorems about these definitions.
-/

namespace OpenapiClient

/-! ## Basic value model

A flat parameter value in the client is either a string or a number
(`Record<string, any> | string | number`).  `jsString` models the JavaScript
conversion `String(v)` used during path substitution. -/

inductive Value where
  | vStr (s : List Char)
  | vNum (n : Int)
deriving DecidableEq, Repr

def jsString : Value → List Char
  | .vStr s => s
  | .vNum n => (toString n).toList

inductive Params where
  | prim (v : Value)
  | obj (m : List (List Char × Value))
deriving DecidableEq, Repr

/-! ## Association lists

JavaScript plain objects are modelled as association lists with first-match
lookup; assignment overwrites the existing binding (`aupsert`). -/

def alookup {α : Type} : List (List Char × α) → List Char → Option α
  | [], _ => none
  | (k, v) :: rest, key => if k = key then some v else alookup rest key

def acontains {α : Type} (l : List (List Char × α)) (k : List Char) : Bool :=
  (alookup l k).isSome

def aupsert {α : Type} : List (List Char × α) → List Char → α → List (List Char × α)
  | [], k, v => [(k, v)]
  | (k', v') :: rest, k, v =>
      if k' = k then (k', v) :: rest else (k', v') :: aupsert rest k v

theorem alookup_aupsert {α : Type} (l : List (List Char × α)) (k : List Char) (v : α) (k' : List Char) :
    alookup (aupsert l k v) k' = if k = k' then some v else alookup l k' := by
  induction l with
  | nil => simp [aupsert, alookup]
  | cons hd tl ih =>
      obtain ⟨k0, v0⟩ := hd
      by_cases h0 : k0 = k
      · subst h0
        by_cases h1 : k0 = k'
        · subst h1; simp [aupsert, alookup]
        · simp [aupsert, alookup, h1]
      · have h2 : ¬ k = k0 := fun h => h0 h.symm
        by_cases h1 : k0 = k'
        · subst h1
          simp [aupsert, alookup, h0, h2]
        · simp [aupsert, alookup, h0, h1, ih]

theorem acontains_aupsert {α : Type} (l : List (List Char × α)) (k : List Char) (v : α) (k' : List Char) :
    acontains (aupsert l k v) k' = (k = k' || acontains l k') := by
  by_cases h : k = k' <;> simp [acontains, alookup_aupsert, h]

/-! ## Percent encoding

Model of JavaScript `encodeURIComponent`: unreserved characters
(`A-Z a-z 0-9 - _ . ! ~ * ' ( )`) pass through, every other character is
UTF-8 encoded and each byte emitted as `%XX` with uppercase hex digits. -/

def isUnreservedChar (c : Char) : Bool :=
  let n := c.toNat
  (65 ≤ n && n ≤ 90) || (97 ≤ n && n ≤ 122) || (48 ≤ n && n ≤ 57) ||
  n == 45 || n == 46 || n == 95 || n == 33 || n == 126 || n == 42 ||
  n == 39 || n == 40 || n == 41

def hexDigitChar (n : Nat) : Char :=
  if n < 10 then Char.ofNat (48 + n) else Char.ofNat (55 + n)

def utf8Bytes (c : Char) : List Nat :=
  if c.toNat < 128 then [c.toNat]
  else if c.toNat < 2048 then [192 + c.toNat / 64, 128 + c.toNat % 64]
  else if c.toNat < 65536 then
    [224 + c.toNat / 4096, 128 + (c.toNat / 64) % 64, 128 + c.toNat % 64]
  else
    [240 + c.toNat / 262144, 128 + (c.toNat / 4096) % 64,
     128 + (c.toNat / 64) % 64, 128 + c.toNat % 64]

def percentEncodeByte (b : Nat) : List Char :=
  ['%', hexDigitChar (b / 16), hexDigitChar (b % 16)]

def encChar (c : Char) : List Char :=
  if isUnreservedChar c then [c] else (utf8Bytes c).flatMap percentEncodeByte

def encodeURIComponent (l : List Char) : List Char :=
  l.flatMap encChar

theorem char_toNat_lt (c : Char) : c.toNat < 1114112 := by
  have h := c.valid
  have he : c.toNat = c.val.toNat := rfl
  rcases h with h | ⟨_, h2⟩
  · omega
  · omega

theorem utf8Bytes_lt (c : Char) : ∀ b ∈ utf8Bytes c, b < 256 := by
  intro b hb
  have hc := char_toNat_lt c
  unfold utf8Bytes at hb
  split at hb
  · simp at hb; omega
  · split at hb
    · have h1 : c.toNat / 64 < 32 := by omega
      have h2 : c.toNat % 64 < 64 := Nat.mod_lt _ (by omega)
      simp at hb
      rcases hb with hb | hb <;> omega
    · split at hb
      · have h1 : c.toNat / 4096 < 16 := by omega
        have h2 : (c.toNat / 64) % 64 < 64 := Nat.mod_lt _ (by omega)
        have h3 : c.toNat % 64 < 64 := Nat.mod_lt _ (by omega)
        simp at hb
        rcases hb with hb | hb | hb <;> omega
      · have h1 : c.toNat / 262144 < 5 := by omega
        have h2 : (c.toNat / 4096) % 64 < 64 := Nat.mod_lt _ (by omega)
        have h3 : (c.toNat / 64) % 64 < 64 := Nat.mod_lt _ (by omega)
        have h4 : c.toNat % 64 < 64 := Nat.mod_lt _ (by omega)
        simp at hb
        rcases hb with hb | hb | hb | hb <;> omega

theorem hexDigitChar_ne_brace : ∀ n, n < 16 → hexDigitChar n ≠ '{' ∧ hexDigitChar n ≠ '}' := by
  decide

theorem percentEncodeByte_ne_brace (b : Nat) (hb : b < 256) :
    ∀ c ∈ percentEncodeByte b, c ≠ '{' ∧ c ≠ '}' := by
  intro c hc
  have h1 : b / 16 < 16 := by omega
  have h2 : b % 16 < 16 := Nat.mod_lt _ (by omega)
  simp [percentEncodeByte] at hc
  rcases hc with hc | hc | hc
  · subst hc; refine ⟨by decide, by decide⟩
  · subst hc; exact hexDigitChar_ne_brace _ h1
  · subst hc; exact hexDigitChar_ne_brace _ h2

theorem isUnreservedChar_ne_brace (c : Char) (h : isUnreservedChar c = true) :
    c ≠ '{' ∧ c ≠ '}' := by
  constructor
  · intro hc; subst hc; simp [isUnreservedChar] at h
  · intro hc; subst hc; simp [isUnreservedChar] at h

theorem encChar_ne_brace (c : Char) : ∀ d ∈ encChar c, d ≠ '{' ∧ d ≠ '}' := by
  intro d hd
  by_cases h : isUnreservedChar c = true
  · simp [encChar, h] at hd
    rw [hd]
    exact isUnreservedChar_ne_brace c h
  · simp [encChar, h, List.mem_flatMap] at hd
    obtain ⟨b, hb, hd2⟩ := hd
    exact percentEncodeByte_ne_brace b (utf8Bytes_lt c b hb) d hd2

theorem encodeURIComponent_ne_brace (s : List Char) :
    ∀ d ∈ encodeURIComponent s, d ≠ '{' ∧ d ≠ '}' := by
  intro d hd
  simp [encodeURIComponent, List.mem_flatMap] at hd
  obtain ⟨c, _, hd⟩ := hd
  exact encChar_ne_brace c d hd

/-! ## Brace discipline

`good l` holds when every opening brace in `l` is immediately followed by a
closing brace.  This is the invariant satisfied by the already-substituted
prefix of the URL during placeholder substitution: it guarantees that no
placeholder pattern can match inside that prefix. -/

def good : List Char → Bool
  | [] => true
  | [c] => decide (c ≠ '{')
  | c :: c' :: rest =>
      if c = '{' then decide (c' = '}') && good rest
      else good (c' :: rest)

theorem good_nil : good [] = true := rfl

theorem good_cons_ne {c : Char} (h : c ≠ '{') (l : List Char) :
    good (c :: l) = good l := by
  cases l with
  | nil => simp [good, h]
  | cons c' rest => simp [good, h]

theorem good_pair (l : List Char) : good ('{' :: '}' :: l) = good l := by
  simp [good]

theorem good_lbrace_singleton : good ['{'] = false := by
  simp [good]

theorem good_lbrace_cons (c : Char) (l : List Char) :
    good ('{' :: c :: l) = (decide (c = '}') && good l) := by
  simp [good]

theorem good_append (a b : List Char) (ha : good a = true) (hb : good b = true) :
    good (a ++ b) = true := by
  induction a with
  | nil => exact hb
  | cons c rest ih =>
      by_cases hc : c = '{'
      · subst hc
        cases rest with
        | nil => rw [good_lbrace_singleton] at ha; exact absurd ha (by simp)
        | cons c' rest' =>
            rw [good_lbrace_cons] at ha
            simp only [Bool.and_eq_true, decide_eq_true_eq] at ha
            obtain ⟨hc', ha'⟩ := ha
            subst hc'
            have hrest : good ('}' :: rest') = true := by
              rwa [good_cons_ne (by decide : ('}' : Char) ≠ '{')]
            have hres := ih hrest
            simp only [List.cons_append] at hres
            rw [good_cons_ne (by decide : ('}' : Char) ≠ '{')] at hres
            simp only [List.cons_append, good_pair]
            exact hres
      · rw [List.cons_append, good_cons_ne hc]
        exact ih (by rwa [good_cons_ne hc] at ha)

theorem good_of_no_lbrace (l : List Char) (h : ∀ c ∈ l, c ≠ '{') : good l = true := by
  induction l with
  | nil => rfl
  | cons c rest ih =>
      rw [good_cons_ne (h c (by simp))]
      exact ih (fun d hd => h d (by simp [hd]))

theorem good_encode (s : List Char) : good (encodeURIComponent s) = true :=
  good_of_no_lbrace _ (fun c hc => (encodeURIComponent_ne_brace s c hc).1)

/-! ## First-occurrence replacement

`replaceFirst s pat rep` models the JavaScript string replace with a plain
string pattern: the first occurrence of `pat` in `s` is replaced by `rep`;
if `pat` does not occur, `s` is returned unchanged. -/

def isPrefixL : List Char → List Char → Bool
  | [], _ => true
  | _ :: _, [] => false
  | a :: as, b :: bs => a = b && isPrefixL as bs

theorem isPrefixL_append_self (l t : List Char) : isPrefixL l (l ++ t) = true := by
  induction l with
  | nil => rfl
  | cons c rest ih => simp [isPrefixL, ih]

def replaceFirst : List Char → List Char → List Char → List Char
  | [], pat, rep => if pat.isEmpty then rep else []
  | c :: rest, pat, rep =>
      if isPrefixL pat (c :: rest) then rep ++ (c :: rest).drop pat.length
      else c :: replaceFirst rest pat rep

/-- If the prefix `D` satisfies the brace discipline, the first occurrence of
the placeholder pattern in the sandwich url is the explicit middle one. -/
theorem replaceFirst_good (D n T e : List Char) (hD : good D = true)
    (hn : n ≠ []) (hn2 : ∀ c ∈ n, c ≠ '}') :
    replaceFirst (D ++ ('{' :: n ++ ['}']) ++ T) ('{' :: n ++ ['}']) e
      = D ++ e ++ T := by
  induction D with
  | nil =>
      have hpre : isPrefixL ('{' :: n ++ ['}']) (('{' :: n ++ ['}']) ++ T) = true :=
        isPrefixL_append_self _ _
      have hs : (('{' :: n ++ ['}']) ++ T) = '{' :: ((n ++ ['}']) ++ T) := by simp
      rw [List.nil_append, List.nil_append]
      rw [hs] at hpre ⊢
      rw [replaceFirst, if_pos hpre]
      have hd : ('{' :: ((n ++ ['}']) ++ T)).drop ('{' :: n ++ ['}']).length = T := by
        have : ('{' :: ((n ++ ['}']) ++ T)) = ('{' :: n ++ ['}']) ++ T := by simp
        rw [this, List.drop_left]
      rw [hd]
  | cons c D' ih =>
      have hnot : isPrefixL ('{' :: n ++ ['}']) (c :: (D' ++ ('{' :: n ++ ['}']) ++ T)) = false := by
        by_cases hc : c = '{'
        · subst hc
          cases D' with
          | nil => rw [good_lbrace_singleton] at hD; exact absurd hD (by simp)
          | cons c' D'' =>
              rw [good_lbrace_cons] at hD
              simp only [Bool.and_eq_true, decide_eq_true_eq] at hD
              obtain ⟨hc', _⟩ := hD
              subst hc'
              cases n with
              | nil => exact absurd rfl hn
              | cons n0 n' =>
                  have hn0 : n0 ≠ '}' := hn2 n0 (by simp)
                  simp [isPrefixL, hn0]
        · have hne : ('{' : Char) ≠ c := fun h => hc (Eq.symm h)
          simp [isPrefixL, hne]
      have hD'good : good D' = true := by
        by_cases hc : c = '{'
        · subst hc
          cases D' with
          | nil => rw [good_lbrace_singleton] at hD; exact absurd hD (by simp)
          | cons c' D'' =>
              rw [good_lbrace_cons] at hD
              simp only [Bool.and_eq_true, decide_eq_true_eq] at hD
              obtain ⟨hc', hD''⟩ := hD
              subst hc'
              rwa [good_cons_ne (by decide : ('}' : Char) ≠ '{')]
        · rwa [good_cons_ne hc] at hD
      have step : replaceFirst ((c :: D') ++ ('{' :: n ++ ['}']) ++ T) ('{' :: n ++ ['}']) e
          = c :: replaceFirst (D' ++ ('{' :: n ++ ['}']) ++ T) ('{' :: n ++ ['}']) e := by
        have hshape : ((c :: D') ++ ('{' :: n ++ ['}']) ++ T)
            = c :: (D' ++ ('{' :: n ++ ['}']) ++ T) := by simp
        rw [hshape, replaceFirst, hnot]
        simp
      rw [step, ih hD'good]
      simp

/-! ## Template scanning

`scanA` models the global scan of the regular expression `\{([^}]+)\}` over a
URL template, as used both for `urlTemplate.match(...)` and for the iteration
of `url.replace(...)` in `splitParams`.  It returns the list of
(literal-prefix, placeholder-name) pairs together with the trailing literal:
a placeholder is a nonempty brace-delimited run of non-`}` characters; an
empty pair `\x7b\x7d` and an unclosed `\x7b` are plain literal text. -/

def scanA : List Char → Option (List Char) → List Char → List (List Char × List Char) × List Char
  | litAcc, none, [] => ([], litAcc)
  | litAcc, none, c :: rest =>
      if c = '{' then scanA litAcc (some []) rest
      else scanA (litAcc ++ [c]) none rest
  | litAcc, some nameAcc, [] => ([], litAcc ++ '{' :: nameAcc)
  | litAcc, some nameAcc, c :: rest =>
      if c = '}' then
        if nameAcc.isEmpty then scanA (litAcc ++ ['{', '}']) none rest
        else ((litAcc, nameAcc) :: (scanA [] none rest).1, (scanA [] none rest).2)
      else scanA litAcc (some (nameAcc ++ [c])) rest

def scanT (l : List Char) : List (List Char × List Char) × List Char :=
  scanA [] none l

/-- Ordered placeholder names of a template, as produced by
`urlTemplate.match(/\{([^}]+)\}/g)?.map(key => key.slice(1, -1))`. -/
def placeholdersOf (l : List Char) : List (List Char) :=
  (scanT l).1.map Prod.snd

def flattenPairs : List (List Char × List Char) → List Char → List Char
  | [], tail => tail
  | (p, nm) :: ps, tail => p ++ '{' :: (nm ++ '}' :: flattenPairs ps tail)

def modeChars : Option (List Char) → List Char
  | none => []
  | some nameAcc => '{' :: nameAcc

theorem scanA_flatten (l : List Char) : ∀ (litAcc : List Char) (mode : Option (List Char)),
    flattenPairs (scanA litAcc mode l).1 (scanA litAcc mode l).2
      = litAcc ++ modeChars mode ++ l := by
  induction l with
  | nil =>
      intro litAcc mode
      cases mode with
      | none => simp [scanA, flattenPairs, modeChars]
      | some nameAcc => simp [scanA, flattenPairs, modeChars]
  | cons c rest ih =>
      intro litAcc mode
      cases mode with
      | none =>
          by_cases hc : c = '{'
          · subst hc
            rw [show scanA litAcc none ('{' :: rest) = scanA litAcc (some []) rest by
                  simp [scanA]]
            rw [ih litAcc (some [])]
            simp [modeChars]
          · rw [show scanA litAcc none (c :: rest) = scanA (litAcc ++ [c]) none rest by
                  simp [scanA, hc]]
            rw [ih (litAcc ++ [c]) none]
            simp [modeChars]
      | some nameAcc =>
          by_cases hc : c = '}'
          · subst hc
            by_cases hemp : nameAcc.isEmpty
            · rw [show scanA litAcc (some nameAcc) ('}' :: rest)
                    = scanA (litAcc ++ ['{', '}']) none rest by simp [scanA, hemp]]
              rw [ih (litAcc ++ ['{', '}']) none]
              have : nameAcc = [] := by
                cases nameAcc with
                | nil => rfl
                | cons a b => simp [List.isEmpty] at hemp
              subst this
              simp [modeChars]
            · rw [show scanA litAcc (some nameAcc) ('}' :: rest)
                    = ((litAcc, nameAcc) :: (scanA [] none rest).1, (scanA [] none rest).2) by
                  simp [scanA, hemp]]
              simp only [flattenPairs]
              rw [ih [] none]
              simp [modeChars]
          · rw [show scanA litAcc (some nameAcc) (c :: rest)
                  = scanA litAcc (some (nameAcc ++ [c])) rest by simp [scanA, hc]]
            rw [ih litAcc (some (nameAcc ++ [c]))]
            simp [modeChars]

theorem scanA_pairs (l : List Char) : ∀ (litAcc : List Char) (mode : Option (List Char)),
    good litAcc = true →
    (∀ nameAcc, mode = some nameAcc → ∀ c ∈ nameAcc, c ≠ '}') →
    ∀ pn ∈ (scanA litAcc mode l).1,
      good pn.1 = true ∧ pn.2 ≠ [] ∧ ∀ c ∈ pn.2, c ≠ '}' := by
  induction l with
  | nil =>
      intro litAcc mode hlit hname pn hpn
      cases mode with
      | none => simp [scanA] at hpn
      | some nameAcc => simp [scanA] at hpn
  | cons c rest ih =>
      intro litAcc mode hlit hname pn hpn
      cases mode with
      | none =>
          by_cases hc : c = '{'
          · subst hc
            rw [show scanA litAcc none ('{' :: rest) = scanA litAcc (some []) rest by
                  simp [scanA]] at hpn
            exact ih litAcc (some []) hlit (by intro na hna; cases hna; simp) pn hpn
          · rw [show scanA litAcc none (c :: rest) = scanA (litAcc ++ [c]) none rest by
                  simp [scanA, hc]] at hpn
            have hgood : good (litAcc ++ [c]) = true :=
              good_append _ _ hlit (by simp [good, hc])
            exact ih (litAcc ++ [c]) none hgood (by intro na hna; cases hna) pn hpn
      | some nameAcc =>
          have hnm : ∀ d ∈ nameAcc, d ≠ '}' := hname nameAcc rfl
          by_cases hc : c = '}'
          · subst hc
            by_cases hemp : nameAcc.isEmpty
            · rw [show scanA litAcc (some nameAcc) ('}' :: rest)
                    = scanA (litAcc ++ ['{', '}']) none rest by simp [scanA, hemp]] at hpn
              have hgood : good (litAcc ++ ['{', '}']) = true :=
                good_append _ _ hlit (by decide)
              exact ih (litAcc ++ ['{', '}']) none hgood (by intro na hna; cases hna) pn hpn
            · rw [show scanA litAcc (some nameAcc) ('}' :: rest)
                    = ((litAcc, nameAcc) :: (scanA [] none rest).1, (scanA [] none rest).2) by
                  simp [scanA, hemp]] at hpn
              simp only [List.mem_cons] at hpn
              rcases hpn with hpn | hpn
              · subst hpn
                refine ⟨hlit, ?_, hnm⟩
                intro hcon
                have hcon' : nameAcc = [] := hcon
                rw [hcon'] at hemp
                exact hemp (by simp [List.isEmpty])
              · exact ih [] none good_nil (by intro na hna; cases hna) pn hpn
          · rw [show scanA litAcc (some nameAcc) (c :: rest)
                  = scanA litAcc (some (nameAcc ++ [c])) rest by simp [scanA, hc]] at hpn
            refine ih litAcc (some (nameAcc ++ [c])) hlit ?_ pn hpn
            intro na hna d hd
            cases hna
            simp only [List.mem_append, List.mem_singleton] at hd
            rcases hd with hd | hd
            · exact hnm d hd
            · rw [hd]; exact hc

/-! ## Parameter splitting

Embedding of `splitParams` from `src/openapi.ts`.  `substLoop` is the
iteration of `url.replace(/\{([^}]+)\}/g, cb)`: for each placeholder of the
original template in order, the callback records the value into `pathParams`
and replaces the first occurrence of the placeholder in the current url with
the percent-encoded string form of the value, or throws on a missing key. -/

def substLoop : List (List Char) → List (List Char × Value) → List Char →
    List (List Char × Value) → Except (List Char) (List Char × List (List Char × Value))
  | [], _, url, pp => .ok (url, pp)
  | k :: ks, m, url, pp =>
      match alookup m k with
      | some v =>
          substLoop ks m (replaceFirst url ('{' :: k ++ ['}']) (encodeURIComponent (jsString v)))
            (aupsert pp k v)
      | none => .error ("Missing path parameter: ".toList ++ k)

structure SplitParamsResult where
  url : List Char
  pathParams : List (List Char × Value)
  queryParams : List (List Char × Value)
deriving DecidableEq, Repr

def splitParams (urlTemplate : List Char) (parameters : Params) :
    Except (List Char) SplitParamsResult :=
  let paramKeys := placeholdersOf urlTemplate
  let isSingleParam := match parameters with
    | .prim _ => true
    | .obj _ => false
  if isSingleParam && paramKeys.isEmpty then
    .error ("Primitives are only supported as path params".toList)
  else
    let paramsObj : List (List Char × Value) :=
      match parameters with
      | .prim v => if paramKeys.length = 1 then [(paramKeys.headD [], v)] else []
      | .obj m => m
    match substLoop paramKeys paramsObj urlTemplate [] with
    | .error msg => .error msg
    | .ok (url, pathParams) =>
        .ok { url := url, pathParams := pathParams,
              queryParams := paramsObj.filter (fun kv => !(acontains pathParams kv.1)) }

/-- Declarative substitution semantics, written after the specification's
words: the produced URL is the template with every placeholder replaced by
the percent-encoded string form of its value.  Used as the reference in the
refinement proof for `splitParams`. -/
def substPairs : List (List Char × List Char) → List Char → List (List Char × Value) → List Char
  | [], tail, _ => tail
  | (p, nm) :: ps, tail, m =>
      p ++ (match alookup m nm with
            | some v => encodeURIComponent (jsString v)
            | none => []) ++ substPairs ps tail m

theorem substLoop_ok (pairs : List (List Char × List Char)) :
    ∀ (tail : List Char) (m : List (List Char × Value)) (D : List Char)
      (pp : List (List Char × Value)),
    good D = true →
    (∀ pn ∈ pairs, good pn.1 = true ∧ pn.2 ≠ [] ∧ ∀ c ∈ pn.2, c ≠ '}') →
    (∀ pn ∈ pairs, (alookup m pn.2).isSome = true) →
    ∃ pp', substLoop (pairs.map Prod.snd) m (D ++ flattenPairs pairs tail) pp
      = .ok (D ++ substPairs pairs tail m, pp') := by
  induction pairs with
  | nil =>
      intro tail m D pp _ _ _
      exact ⟨pp, rfl⟩
  | cons pn ps ih =>
      intro tail m D pp hD hpairs hm
      obtain ⟨p, nm⟩ := pn
      obtain ⟨hgoodp, hnm, hnm2⟩ := hpairs (p, nm) (by simp)
      have hsome := hm (p, nm) (by simp)
      simp only at hgoodp hnm hnm2 hsome
      obtain ⟨v, hv⟩ := Option.isSome_iff_exists.mp hsome
      have hshape : D ++ flattenPairs ((p, nm) :: ps) tail
          = (D ++ p) ++ ('{' :: nm ++ ['}']) ++ flattenPairs ps tail := by
        simp [flattenPairs]
      have hrepl : replaceFirst (D ++ flattenPairs ((p, nm) :: ps) tail)
            ('{' :: nm ++ ['}']) (encodeURIComponent (jsString v))
          = (D ++ p) ++ encodeURIComponent (jsString v) ++ flattenPairs ps tail := by
        rw [hshape]
        exact replaceFirst_good (D ++ p) nm (flattenPairs ps tail) _
          (good_append _ _ hD hgoodp) hnm hnm2
      have hstep : substLoop (((p, nm) :: ps).map Prod.snd) m
            (D ++ flattenPairs ((p, nm) :: ps) tail) pp
          = substLoop (ps.map Prod.snd) m
              ((D ++ p) ++ encodeURIComponent (jsString v) ++ flattenPairs ps tail)
              (aupsert pp nm v) := by
        simp only [List.map_cons, substLoop, hv, hrepl]
      rw [hstep]
      have hDgood : good ((D ++ p) ++ encodeURIComponent (jsString v)) = true :=
        good_append _ _ (good_append _ _ hD hgoodp) (good_encode _)
      obtain ⟨pp', hpp'⟩ := ih tail m ((D ++ p) ++ encodeURIComponent (jsString v))
        (aupsert pp nm v) hDgood
        (fun q hq => hpairs q (by simp [hq]))
        (fun q hq => hm q (by simp [hq]))
      refine ⟨pp', ?_⟩
      have harr : (D ++ p) ++ encodeURIComponent (jsString v) ++ flattenPairs ps tail
          = ((D ++ p) ++ encodeURIComponent (jsString v)) ++ flattenPairs ps tail := by
        simp
      rw [harr, hpp']
      have : ((D ++ p) ++ encodeURIComponent (jsString v)) ++ substPairs ps tail m
          = D ++ substPairs ((p, nm) :: ps) tail m := by
        simp [substPairs, hv]
      rw [this]

theorem substLoop_contains (keys : List (List Char)) :
    ∀ (m : List (List Char × Value)) (url : List Char)
      (pp : List (List Char × Value)) (u : List Char) (pp' : List (List Char × Value)),
    substLoop keys m url pp = .ok (u, pp') →
    ∀ k, acontains pp' k = true ↔ k ∈ keys ∨ acontains pp k = true := by
  induction keys with
  | nil =>
      intro m url pp u pp' h k
      simp only [substLoop] at h
      cases h
      simp
  | cons k0 ks ih =>
      intro m url pp u pp' h k
      simp only [substLoop] at h
      cases hv : alookup m k0 with
      | none => rw [hv] at h; cases h
      | some v =>
          rw [hv] at h
          have hiff := ih m _ _ u pp' h k
          rw [hiff, acontains_aupsert]
          simp only [Bool.or_eq_true, decide_eq_true_eq, List.mem_cons]
          constructor
          · rintro (hk | hk | hk)
            · exact Or.inl (Or.inr hk)
            · exact Or.inl (Or.inl hk.symm)
            · exact Or.inr hk
          · rintro ((hk | hk) | hk)
            · exact Or.inr (Or.inl hk.symm)
            · exact Or.inl hk
            · exact Or.inr (Or.inr hk)

theorem substLoop_missing (keys : List (List Char)) :
    ∀ (m : List (List Char × Value)) (url : List Char) (pp : List (List Char × Value))
      (k0 : List Char),
    keys.find? (fun k => (alookup m k).isNone) = some k0 →
    substLoop keys m url pp = .error ("Missing path parameter: ".toList ++ k0) := by
  induction keys with
  | nil => intro m url pp k0 h; simp at h
  | cons k ks ih =>
      intro m url pp k0 h
      cases hv : alookup m k with
      | none =>
          have hk : k = k0 := by
            rw [List.find?_cons_of_pos _ (by simp [hv])] at h
            exact Option.some_injective _ h
          subst hk
          simp only [substLoop, hv]
      | some v =>
          rw [List.find?_cons_of_neg _ (by simp [hv])] at h
          simp only [substLoop, hv]
          exact ih m _ _ k0 h

/-! ## Operation naming

Embedding of `toSafeName` and `camelCase` from `src/openapi.ts`.  `camelCase`
matches the regular expression
`[A-Z]{2,}(?=[A-Z][a-z]+[0-9]*|\b)|[A-Z]?[a-z]+[0-9]*|[A-Z]|[0-9]+`
globally over the input (ordered alternation with greedy backtracking of the
uppercase run against the lookahead), lowercases every word, then joins with
the first word as-is and later words capitalized. -/

def isUpperChar (c : Char) : Bool := 65 ≤ c.toNat && c.toNat ≤ 90

def isLowerChar (c : Char) : Bool := 97 ≤ c.toNat && c.toNat ≤ 122

def isDigitChar (c : Char) : Bool := 48 ≤ c.toNat && c.toNat ≤ 57

def isWordChar (c : Char) : Bool :=
  isUpperChar c || isLowerChar c || isDigitChar c || c == '_'

/-- The lookahead `(?=[A-Z][a-z]+[0-9]*|\b)` at a position whose previous
character is an uppercase letter (hence a word character). -/
def alt1Look (rest : List Char) : Bool :=
  (match rest with
   | a :: b :: _ => isUpperChar a && isLowerChar b
   | _ => false) ||
  (match rest with
   | [] => true
   | c :: _ => !isWordChar c)

def tryLens (cs : List Char) : Nat → Option Nat
  | 0 => none
  | 1 => none
  | n + 2 => if alt1Look (cs.drop (n + 2)) then some (n + 2) else tryLens cs (n + 1)

def matchAlt1 (cs : List Char) : Option Nat :=
  tryLens cs (cs.takeWhile isUpperChar).length

def matchAlt2 : List Char → Option Nat
  | [] => none
  | c :: rest =>
      if isUpperChar c then
        match rest with
        | [] => none
        | d :: _ =>
            if isLowerChar d then
              some (1 + (rest.takeWhile isLowerChar).length +
                ((rest.dropWhile isLowerChar).takeWhile isDigitChar).length)
            else none
      else if isLowerChar c then
        some (((c :: rest).takeWhile isLowerChar).length +
          (((c :: rest).dropWhile isLowerChar).takeWhile isDigitChar).length)
      else none

def matchAlt3 : List Char → Option Nat
  | [] => none
  | c :: _ => if isUpperChar c then some 1 else none

def matchAlt4 : List Char → Option Nat
  | [] => none
  | c :: rest =>
      if isDigitChar c then some ((c :: rest).takeWhile isDigitChar).length else none

def matchOnce (cs : List Char) : Option Nat :=
  match matchAlt1 cs with
  | some n => some n
  | none =>
      match matchAlt2 cs with
      | some n => some n
      | none =>
          match matchAlt3 cs with
          | some n => some n
          | none => matchAlt4 cs

def camelGo : Nat → List Char → List (List Char)
  | 0, _ => []
  | _ + 1, [] => []
  | fuel + 1, c :: rest =>
      match matchOnce (c :: rest) with
      | some len => (c :: rest).take len :: camelGo fuel ((c :: rest).drop len)
      | none => camelGo fuel rest

def camelWords (l : List Char) : List (List Char) :=
  camelGo l.length l

def toLowerChar (c : Char) : Char :=
  if 65 ≤ c.toNat && c.toNat ≤ 90 then Char.ofNat (c.toNat + 32) else c

def toUpperChar (c : Char) : Char :=
  if 97 ≤ c.toNat && c.toNat ≤ 122 then Char.ofNat (c.toNat - 32) else c

def capitalizeWord : List Char → List Char
  | [] => []
  | c :: rest => toUpperChar c :: rest

def camelCase (input : List Char) : List Char :=
  match (camelWords input).map (List.map toLowerChar) with
  | [] => []
  | w :: ws => w ++ (ws.map capitalizeWord).flatten

/-- `toSafeName`: every character outside `[A-Za-z0-9_]` becomes an
underscore. -/
def toSafeName (name : List Char) : List Char :=
  name.map (fun c => if isWordChar c then c else '_')

/-- `path.replace(/[\/{}]/g, ' ')`. -/
def stripPath (path : List Char) : List Char :=
  path.map (fun c => if c = '/' || c = '{' || c = '}' then ' ' else c)

/-- Operation id derivation from `buildClientFromSpec`: a declared
`operationId` is sanitized; otherwise the name is derived from the method and
the brace-and-slash-stripped path via `camelCase`, then sanitized. -/
def deriveOperationId (method : List Char) (path : List Char)
    (declared : Option (List Char)) : List Char :=
  match declared with
  | some d => toSafeName d
  | none => toSafeName (camelCase (method ++ ' ' :: stripPath path))

/-! ## Client building and dispatch

`buildClientFromSpec` registers, for every (path, method, operation) entry,
a closure over `(path, method, operationId)` in the flat operation-name map;
assignment into the map overwrites.  `callOperation` is `createMethod`'s
body: split the parameters, then build the axios request configuration with
caller-supplied overrides winning on key conflicts. -/

structure OpClosure where
  path : List Char
  method : List Char
  operationId : List Char
deriving DecidableEq, Repr

def buildMethods (paths : List (List Char × List (List Char × Option (List Char)))) :
    List (List Char × OpClosure) :=
  paths.foldl (fun acc pm =>
    pm.2.foldl (fun acc2 mo =>
      let opName := deriveOperationId mo.1 pm.1 mo.2
      aupsert acc2 opName ⟨pm.1, mo.1, opName⟩) acc) []

inductive JVal where
  | vNull
  | vBool (b : Bool)
  | vNum (n : Int)
  | vStr (s : List Char)
  | vArr (xs : List JVal)
  | vObj (fields : List (List Char × JVal))

structure AxiosCfg where
  method : List Char
  url : List Char
  params : List (List Char × Value)
  data : Option JVal
  operationId : List Char

/-- Caller-supplied per-call overrides for the keys built by `createMethod`
(the object spread `...config` makes these win on conflicts). -/
structure CfgOverride where
  method : Option (List Char) := none
  url : Option (List Char) := none
  params : Option (List (List Char × Value)) := none
  data : Option (Option JVal) := none
  operationId : Option (List Char) := none

def callOperation (cl : OpClosure) (parameters : Params) (data : Option JVal)
    (cfg : CfgOverride) : Except (List Char) AxiosCfg :=
  (splitParams cl.path parameters).map (fun r =>
    { method := cfg.method.getD cl.method
      url := cfg.url.getD r.url
      params := cfg.params.getD r.queryParams
      data := cfg.data.getD data
      operationId := cfg.operationId.getD cl.operationId })

/-! ## Response normalization

Embedding of `src/wrapper.ts`.  `Option` models the JavaScript
`null`/`undefined` absence of a value (the `?? undefined` coalescing in
`responseError` maps `null` to `undefined`; both are absence). -/

inductive PROBLEM_CODE where
  | CLIENT_ERROR
  | SERVER_ERROR
  | CONNECTION_ERROR
  | NETWORK_ERROR
  | UNKNOWN_ERROR
  | CANCEL_ERROR
  | TIMEOUT_ERROR
  | VALIDATION_ERROR
deriving DecidableEq, Repr

/-- `getProblemFromStatus`.  The JavaScript guard `if (!status)` treats both
an absent status and the falsy status `0` as "no status". -/
def getProblemFromStatus (status : Option Int) : Option PROBLEM_CODE :=
  match status with
  | none => some .UNKNOWN_ERROR
  | some s =>
      if s = 0 then some .UNKNOWN_ERROR
      else if 200 ≤ s ∧ s < 300 then none
      else if 400 ≤ s ∧ s < 500 then some .CLIENT_ERROR
      else if 500 ≤ s then some .SERVER_ERROR
      else some .UNKNOWN_ERROR

/-- The relevant part of an axios response attached to an error
(`e.response`). -/
structure Resp where
  status : Int
  data : JVal
  headers : JVal

/-- Request configuration as seen by the response interceptors
(`res.config`); `operationId` is the extra key attached by `createMethod`. -/
structure Cfg where
  operationId : Option (List Char)

/-- A JavaScript rejection value as inspected by the normalizer: the
`isAxiosError` marker, the message, the machine-readable `code`, whether
`axios.isCancel` recognizes it, the attached response, and the request
configuration. -/
structure JsError where
  isAxiosError : Bool
  message : Option (List Char)
  code : Option (List Char)
  cancel : Bool
  response : Option Resp
  config : Option Cfg

/-- `getProblemFromError`: error-based classification in precedence order
(network message, cancellation, absent code falling back to status
classification, deadline code, unknown). -/
def getProblemFromError (e : JsError) : Option PROBLEM_CODE :=
  if e.message = some ("Network Error".toList) then some .NETWORK_ERROR
  else if e.cancel then some .CANCEL_ERROR
  else if e.code = none then getProblemFromStatus (e.response.map (·.status))
  else if e.code = some ("ECONNABORTED".toList) then some .TIMEOUT_ERROR
  else some .UNKNOWN_ERROR

/-- The failure result built by `responseError` for a recognized axios
error: `{...e.response, data: {}, ok: false, status: e.response?.status,
config: e.config, originalError: e, problem: getProblemFromStatus(...) ??
undefined}`. -/
structure ErrResult where
  ok : Bool
  problem : Option PROBLEM_CODE
  status : Option Int
  data : JVal
  headers : Option JVal
  config : Option Cfg
  originalError : JsError

/-- `responseError`: a recognized axios error is normalized into a failure
result; anything else is re-thrown (modelled as `Except.error`). -/
def responseError (e : JsError) : Except JsError ErrResult :=
  if e.isAxiosError then
    .ok { ok := false
          problem := getProblemFromStatus (e.response.map (·.status))
          status := e.response.map (·.status)
          data := .vObj []
          headers := e.response.map (·.headers)
          config := e.config
          originalError := e }
  else
    .error e

/-! ## Validation interceptor

The response post-processing hook installed by `buildClientFromSpec` when
validators are configured.  A validator models `z.ZodType.parse` restricted
to what the hook uses: whether it throws, and with what error. -/

inductive OrigErr where
  | axios (e : JsError)
  | zod (msg : List Char)

/-- The uniform result shape seen by the response interceptor. -/
structure Res where
  ok : Bool
  problem : Option PROBLEM_CODE
  originalError : Option OrigErr
  data : JVal
  status : Option Int
  headers : Option JVal
  config : Cfg

def validationInterceptor (validators : List (List Char × (JVal → Option (List Char))))
    (res : Res) : Res :=
  if res.ok then
    match res.config.operationId.bind (fun opId => alookup validators opId) with
    | some validator =>
        match validator res.data with
        | some err =>
            { ok := false
              problem := some .VALIDATION_ERROR
              originalError := some (.zod err)
              data := res.data
              status := res.status
              headers := res.headers
              config := res.config }
        | none => res
    | none => res
  else res

/-! ## Claim theorems -/

/-- C3: `getProblemFromStatus` is total and maps an absent status to
UNKNOWN_ERROR, 200-299 to no problem, 400-499 to CLIENT_ERROR, 500 and above
to SERVER_ERROR, and every other status to UNKNOWN_ERROR, with the boundary
values 199, 200, 299, 300, 400, 499, 500 behaving as stated. -/
theorem getProblemFromStatus_spec :
    getProblemFromStatus none = some PROBLEM_CODE.UNKNOWN_ERROR
    ∧ (∀ s : Int, 200 ≤ s → s < 300 → getProblemFromStatus (some s) = none)
    ∧ (∀ s : Int, 400 ≤ s → s < 500 →
        getProblemFromStatus (some s) = some PROBLEM_CODE.CLIENT_ERROR)
    ∧ (∀ s : Int, 500 ≤ s → getProblemFromStatus (some s) = some PROBLEM_CODE.SERVER_ERROR)
    ∧ (∀ s : Int, ¬ (200 ≤ s ∧ s < 300) → ¬ (400 ≤ s ∧ s < 500) → ¬ 500 ≤ s →
        getProblemFromStatus (some s) = some PROBLEM_CODE.UNKNOWN_ERROR)
    ∧ getProblemFromStatus (some 199) = some PROBLEM_CODE.UNKNOWN_ERROR
    ∧ getProblemFromStatus (some 200) = none
    ∧ getProblemFromStatus (some 299) = none
    ∧ getProblemFromStatus (some 300) = some PROBLEM_CODE.UNKNOWN_ERROR
    ∧ getProblemFromStatus (some 400) = some PROBLEM_CODE.CLIENT_ERROR
    ∧ getProblemFromStatus (some 499) = some PROBLEM_CODE.CLIENT_ERROR
    ∧ getProblemFromStatus (some 500) = some PROBLEM_CODE.SERVER_ERROR := by
  refine ⟨rfl, ?_, ?_, ?_, ?_, by decide, by decide, by decide, by decide,
    by decide, by decide, by decide⟩
  · intro s h1 h2
    simp only [getProblemFromStatus]
    split_ifs <;> first | rfl | omega
  · intro s h1 h2
    simp only [getProblemFromStatus]
    split_ifs <;> first | rfl | omega
  · intro s h1
    simp only [getProblemFromStatus]
    split_ifs <;> first | rfl | omega
  · intro s h1 h2 h3
    simp only [getProblemFromStatus]
    split_ifs <;> first | rfl | omega

theorem getProblemFromStatus_spec_witness :
    getProblemFromStatus (some 250) = none
    ∧ getProblemFromStatus (some 404) = some PROBLEM_CODE.CLIENT_ERROR
    ∧ getProblemFromStatus (some 503) = some PROBLEM_CODE.SERVER_ERROR
    ∧ getProblemFromStatus (some 42) = some PROBLEM_CODE.UNKNOWN_ERROR :=
  ⟨getProblemFromStatus_spec.2.1 250 (by decide) (by decide),
   getProblemFromStatus_spec.2.2.1 404 (by decide) (by decide),
   getProblemFromStatus_spec.2.2.2.1 503 (by decide),
   getProblemFromStatus_spec.2.2.2.2.1 42 (by decide) (by decide) (by decide)⟩

/-- The transport rejection of end-to-end scenario D: a recognized axios
error with message "Network Error" and no attached response. -/
def networkErrorRejection : JsError :=
  { isAxiosError := true
    message := some ("Network Error".toList)
    code := none
    cancel := false
    response := none
    config := none }

/-- C1: the error-based classifier `getProblemFromError` does classify this
rejection as NETWORK_ERROR, but `responseError` never consults it: it always
uses status-based classification, so the normalized result for a
response-less "Network Error" rejection carries UNKNOWN_ERROR instead of the
claimed NETWORK_ERROR. -/
theorem responseError_networkError_unknown :
    getProblemFromError networkErrorRejection = some PROBLEM_CODE.NETWORK_ERROR
    ∧ ∃ r, responseError networkErrorRejection = .ok r
        ∧ r.ok = false ∧ r.problem = some PROBLEM_CODE.UNKNOWN_ERROR := by
  exact ⟨rfl, ⟨_, rfl, rfl, rfl⟩⟩

/-- C9: a rejection value not recognized as an axios error is re-raised
unchanged by `responseError` instead of being converted into a uniform
failure result. -/
theorem responseError_reraises (e : JsError) (h : e.isAxiosError = false) :
    responseError e = .error e := by
  simp [responseError, h]

def nonAxiosRejection : JsError :=
  { isAxiosError := false
    message := some ("boom".toList)
    code := none
    cancel := false
    response := none
    config := none }

theorem responseError_reraises_witness :
    responseError nonAxiosRejection = .error nonAxiosRejection :=
  responseError_reraises nonAxiosRejection rfl

/-- C10: a recognized axios error whose attached response has a 2xx status
normalizes to a failure result with `ok := false` but no problem code at
all: the status classifier's null is coalesced to undefined, so not every
non-ok result carries a member of the problem taxonomy. -/
theorem responseError_ok_status_no_problem (e : JsError) (resp : Resp)
    (h1 : e.isAxiosError = true) (h2 : e.response = some resp)
    (h3 : 200 ≤ resp.status) (h4 : resp.status < 300) :
    ∃ r, responseError e = .ok r ∧ r.ok = false ∧ r.problem = none := by
  have hp : getProblemFromStatus (e.response.map (·.status)) = none := by
    rw [h2]
    simp only [Option.map_some']
    simp only [getProblemFromStatus]
    rw [if_neg (by omega), if_pos ⟨h3, h4⟩]
  have he : responseError e
      = .ok { ok := false
              problem := getProblemFromStatus (e.response.map (·.status))
              status := e.response.map (·.status)
              data := .vObj []
              headers := e.response.map (·.headers)
              config := e.config
              originalError := e } := by
    simp [responseError, h1]
  exact ⟨_, he, rfl, hp⟩

def okStatusRejection : JsError :=
  { isAxiosError := true
    message := none
    code := none
    cancel := false
    response := some { status := 204, data := .vNull, headers := .vObj [] }
    config := none }

theorem responseError_ok_status_no_problem_witness :
    ∃ r, responseError okStatusRejection = .ok r ∧ r.ok = false ∧ r.problem = none :=
  responseError_ok_status_no_problem okStatusRejection _ rfl rfl (by decide) (by decide)

/-- C8: when a validator is registered under the operation's name, an ok
result whose payload fails validation becomes a failure with
VALIDATION_ERROR, the validation error as `originalError`, the raw payload
echoed as `data`, and status, headers and config preserved; a passing
validation, a missing validator, or a non-ok result is left unchanged. -/
theorem validationInterceptor_spec
    (validators : List (List Char × (JVal → Option (List Char))))
    (res : Res) (opId : List Char) (f : JVal → Option (List Char)) :
    (res.ok = true → res.config.operationId = some opId →
     alookup validators opId = some f →
      (∀ err, f res.data = some err →
        validationInterceptor validators res =
          { ok := false
            problem := some PROBLEM_CODE.VALIDATION_ERROR
            originalError := some (.zod err)
            data := res.data
            status := res.status
            headers := res.headers
            config := res.config })
      ∧ (f res.data = none → validationInterceptor validators res = res))
    ∧ (res.ok = false → validationInterceptor validators res = res)
    ∧ (res.ok = true →
        res.config.operationId.bind (fun o => alookup validators o) = none →
        validationInterceptor validators res = res) := by
  refine ⟨?_, ?_, ?_⟩
  · intro hok hop hf
    have hbind : res.config.operationId.bind (fun o => alookup validators o) = some f := by
      rw [hop]
      simpa using hf
    refine ⟨?_, ?_⟩
    · intro err herr
      simp [validationInterceptor, hok, hbind, herr]
    · intro hnone
      simp [validationInterceptor, hok, hbind, hnone]
  · intro hok
    simp [validationInterceptor, hok]
  · intro hok hnone
    simp [validationInterceptor, hok, hnone]

def sampleValidator : JVal → Option (List Char) := fun v =>
  match v with
  | .vObj [] => none
  | _ => some ("invalid".toList)

def sampleOkRes : Res :=
  { ok := true
    problem := none
    originalError := none
    data := .vStr ("raw".toList)
    status := some 200
    headers := some (.vObj [])
    config := { operationId := some ("getUser".toList) } }

theorem validationInterceptor_spec_witness :
    validationInterceptor [(("getUser".toList), sampleValidator)] sampleOkRes
      = { ok := false
          problem := some PROBLEM_CODE.VALIDATION_ERROR
          originalError := some (.zod ("invalid".toList))
          data := sampleOkRes.data
          status := sampleOkRes.status
          headers := sampleOkRes.headers
          config := sampleOkRes.config } :=
  ((validationInterceptor_spec [(("getUser".toList), sampleValidator)] sampleOkRes
      ("getUser".toList) sampleValidator).1 rfl rfl (by simp [alookup])).1
    ("invalid".toList) rfl

/-- C6: for every operation call the transport is invoked with a
configuration holding the method, the substituted URL, the split-off query
parameters, the body, and the operation name, with caller overrides winning
on conflicts; concretely, the client built from the one-operation spec for
getUser on path /user/(id) dispatches getUser with id 1 and expand
"details" as method get, url /user/1 and params containing only expand. -/
theorem createMethod_dispatch_spec :
    (∃ cl, alookup (buildMethods
        [(("/user/{id}".toList), [(("get".toList), some ("getUser".toList))])])
        ("getUser".toList) = some cl
      ∧ callOperation cl
          (.obj [(("id".toList), .vNum 1), (("expand".toList), .vStr ("details".toList))])
          none {}
        = .ok { method := "get".toList
                url := "/user/1".toList
                params := [(("expand".toList), .vStr ("details".toList))]
                data := none
                operationId := "getUser".toList })
    ∧ (∀ (cl : OpClosure) (p : Params) (d : Option JVal) (cfg : CfgOverride)
         (r : SplitParamsResult),
        splitParams cl.path p = .ok r →
        callOperation cl p d cfg
          = .ok { method := cfg.method.getD cl.method
                  url := cfg.url.getD r.url
                  params := cfg.params.getD r.queryParams
                  data := cfg.data.getD d
                  operationId := cfg.operationId.getD cl.operationId }) := by
  constructor
  · exact ⟨_, rfl, rfl⟩
  · intro cl p d cfg r hr
    simp [callOperation, hr, Except.map]

theorem createMethod_dispatch_witness :
    callOperation ⟨("/search/{term}".toList), ("get".toList), ("searchOp".toList)⟩
        (.prim (.vStr ("hello world".toList))) none { method := some ("post".toList) }
      = .ok { method := "post".toList
              url := "/search/hello%20world".toList
              params := []
              data := none
              operationId := "searchOp".toList } :=
  createMethod_dispatch_spec.2
    ⟨("/search/{term}".toList), ("get".toList), ("searchOp".toList)⟩
    (.prim (.vStr ("hello world".toList))) none { method := some ("post".toList) }
    { url := "/search/hello%20world".toList
      pathParams := [(("term".toList), .vStr ("hello world".toList))]
      queryParams := [] }
    rfl

/-- C7: for a (method, path) pair without a declared operationId, the
derived name is the sanitized lower-camel-casing of the method token
prepended to the path with slashes and braces replaced by spaces; in
particular method post with the order-items path of scenario B yields
postOrderIdItemsItemId. -/
theorem deriveOperationId_spec :
    (∀ method path, deriveOperationId method path none
        = toSafeName (camelCase (method ++ ' ' :: stripPath path)))
    ∧ deriveOperationId ("post".toList) ("/order/{id}/items/{itemId}".toList) none
        = "postOrderIdItemsItemId".toList := by
  exact ⟨fun _ _ => rfl, by rfl⟩

/-- C4: whenever the parameter mapping lacks a value for at least one
placeholder, `splitParams` fails with an error naming exactly the first
missing placeholder in template order, and returns no result. -/
theorem splitParams_missing_spec (t : List Char) (m : List (List Char × Value))
    (k0 : List Char)
    (h : (placeholdersOf t).find? (fun k => (alookup m k).isNone) = some k0) :
    splitParams t (.obj m) = .error ("Missing path parameter: ".toList ++ k0) := by
  have hsp : splitParams t (.obj m)
      = (match substLoop (placeholdersOf t) m t [] with
         | .error msg => .error msg
         | .ok (url, pathParams) =>
             .ok { url := url, pathParams := pathParams,
                   queryParams := m.filter (fun kv => !(acontains pathParams kv.1)) }) := rfl
  rw [hsp, substLoop_missing (placeholdersOf t) m t [] k0 h]

theorem splitParams_missing_witness :
    splitParams ("/user/{id}/items/{itemId}".toList) (.obj [(("id".toList), .vNum 1)])
      = .error ("Missing path parameter: itemId".toList) :=
  splitParams_missing_spec ("/user/{id}/items/{itemId}".toList)
    [(("id".toList), .vNum 1)] ("itemId".toList) (by decide)

/-- C5: a primitive parameter against a template with no placeholder fails
with the "primitives are only supported as path params" error; against a
template with exactly one placeholder it becomes that placeholder's value
(behaving exactly like the singleton mapping) and `pathParams` has exactly
one entry; against a template with two or more placeholders it fails with
MissingPathParameter naming the first placeholder in template order. -/
theorem splitParams_primitive_spec :
    (∀ t v, placeholdersOf t = [] →
      splitParams t (.prim v)
        = .error ("Primitives are only supported as path params".toList))
    ∧ (∀ t v k, placeholdersOf t = [k] →
        splitParams t (.prim v) = splitParams t (.obj [(k, v)])
        ∧ ∃ r, splitParams t (.prim v) = .ok r ∧ r.pathParams = [(k, v)])
    ∧ (∀ t v k1 k2 ks, placeholdersOf t = k1 :: k2 :: ks →
        splitParams t (.prim v)
          = .error ("Missing path parameter: ".toList ++ k1)) := by
  refine ⟨?_, ?_, ?_⟩
  · intro t v h
    simp [splitParams, h]
  · intro t v k h
    constructor
    · simp [splitParams, h]
    · simp [splitParams, h, substLoop, alookup, aupsert]
  · intro t v k1 k2 ks h
    simp [splitParams, h, substLoop, alookup]

theorem splitParams_primitive_witness :
    splitParams ("/static".toList) (.prim (.vStr ("oops".toList)))
      = .error ("Primitives are only supported as path params".toList)
    ∧ (∃ r, splitParams ("/fetch/{id}".toList) (.prim (.vNum 2)) = .ok r
        ∧ r.pathParams = [(("id".toList), .vNum 2)])
    ∧ splitParams ("/user/{id}/items/{itemId}".toList) (.prim (.vNum 123))
      = .error ("Missing path parameter: id".toList) :=
  ⟨splitParams_primitive_spec.1 ("/static".toList) (.vStr ("oops".toList)) (by decide),
   (splitParams_primitive_spec.2.1 ("/fetch/{id}".toList) (.vNum 2) ("id".toList)
      (by decide)).2,
   splitParams_primitive_spec.2.2 ("/user/{id}/items/{itemId}".toList) (.vNum 123)
     ("id".toList) ("itemId".toList) [] (by decide)⟩

/-- C2: for a mapping input containing a value for every placeholder,
`splitParams` succeeds; the produced URL is the template with every
placeholder replaced by the percent-encoded string form of its value
(refinement against the declarative `substPairs`), the key set of
`pathParams` is exactly the placeholder set, `queryParams` keeps exactly the
non-placeholder input entries, and numeric and string values with the same
string form serialize identically during substitution. -/
theorem splitParams_complete_spec (t : List Char) (m : List (List Char × Value))
    (hall : ∀ k ∈ placeholdersOf t, (alookup m k).isSome = true) :
    ∃ r, splitParams t (.obj m) = .ok r
      ∧ r.url = substPairs (scanT t).1 (scanT t).2 m
      ∧ (∀ k, acontains r.pathParams k = true ↔ k ∈ placeholdersOf t)
      ∧ r.queryParams = m.filter (fun kv => !(decide (kv.1 ∈ placeholdersOf t)))
      ∧ (∀ n : Int, encodeURIComponent (jsString (.vNum n))
          = encodeURIComponent (jsString (.vStr ((toString n).toList)))) := by
  have hpairs : ∀ pn ∈ (scanT t).1,
      good pn.1 = true ∧ pn.2 ≠ [] ∧ ∀ c ∈ pn.2, c ≠ '}' :=
    scanA_pairs t [] none good_nil (by intro na hna; cases hna)
  have hflat : flattenPairs (scanT t).1 (scanT t).2 = t := by
    have h := scanA_flatten t [] none
    simpa [modeChars, scanT] using h
  have hm : ∀ pn ∈ (scanT t).1, (alookup m pn.2).isSome = true := by
    intro pn hpn
    exact hall pn.2 (List.mem_map_of_mem Prod.snd hpn)
  obtain ⟨pp2, hloop⟩ := substLoop_ok (scanT t).1 (scanT t).2 m [] [] good_nil hpairs hm
  simp only [List.nil_append] at hloop
  rw [hflat] at hloop
  have hkeys : placeholdersOf t = (scanT t).1.map Prod.snd := rfl
  have hsp : splitParams t (.obj m)
      = (match substLoop (placeholdersOf t) m t [] with
         | .error msg => .error msg
         | .ok (url, pathParams) =>
             .ok { url := url, pathParams := pathParams,
                   queryParams := m.filter (fun kv => !(acontains pathParams kv.1)) }) := rfl
  rw [hkeys] at hsp
  rw [hloop] at hsp
  have hcont : ∀ k, acontains pp2 k = true ↔ k ∈ placeholdersOf t := by
    intro k
    have hiff := substLoop_contains ((scanT t).1.map Prod.snd) m t [] _ pp2 hloop k
    rw [hkeys]
    simpa [acontains, alookup] using hiff
  have hb : ∀ k, acontains pp2 k = decide (k ∈ placeholdersOf t) := by
    intro k
    by_cases hk : k ∈ placeholdersOf t
    · rw [(hcont k).mpr hk, decide_eq_true hk]
    · have hfalse : acontains pp2 k = false := by
        cases hck : acontains pp2 k
        · rfl
        · exact absurd ((hcont k).mp hck) hk
      rw [hfalse, decide_eq_false hk]
  refine ⟨_, hsp, rfl, hcont, ?_, fun n => rfl⟩
  exact List.filter_congr (fun kv _ => by rw [hb kv.1])

theorem splitParams_complete_witness :
    ∃ r, splitParams ("/user/{id}/items/{itemId}".toList)
        (.obj [(("id".toList), .vNum 123), (("itemId".toList), .vStr ("abc".toList)),
               (("expand".toList), .vStr ("full".toList))]) = .ok r
      ∧ r.url = substPairs (scanT ("/user/{id}/items/{itemId}".toList)).1
          (scanT ("/user/{id}/items/{itemId}".toList)).2
          [(("id".toList), .vNum 123), (("itemId".toList), .vStr ("abc".toList)),
           (("expand".toList), .vStr ("full".toList))]
      ∧ (∀ k, acontains r.pathParams k = true
          ↔ k ∈ placeholdersOf ("/user/{id}/items/{itemId}".toList))
      ∧ r.queryParams
          = [(("id".toList), Value.vNum 123), (("itemId".toList), Value.vStr ("abc".toList)),
             (("expand".toList), Value.vStr ("full".toList))].filter
              (fun kv => !(decide (kv.1 ∈ placeholdersOf ("/user/{id}/items/{itemId}".toList))))
      ∧ (∀ n : Int, encodeURIComponent (jsString (.vNum n))
          = encodeURIComponent (jsString (.vStr ((toString n).toList)))) :=
  splitParams_complete_spec ("/user/{id}/items/{itemId}".toList)
    [(("id".toList), .vNum 123), (("itemId".toList), .vStr ("abc".toList)),
     (("expand".toList), .vStr ("full".toList))]
    (by decide)

end OpenapiClient
